import Mathlib

/-!
Verification of the numeric core of a single-shot-detector pipeline
(`utils/bbox2target_np.py`): box format conversion, IoU, ground-truth/prior
matching, box decoding and non-maximum suppression.

Numpy arrays of shape N×4 are embedded as lists of `Box4` records whose four
fields are the four columns of a row; 2-D/3-D float arrays are embedded as
nested lists of rationals (or reals where the source applies `np.exp`/`np.log`).
Machine floats are modelled by exact arithmetic (`ℚ`, or `ℝ` for the
transcendental parts); the non-finite float results of dividing by zero are
modelled explicitly with `Option` where a claim depends on them.
-/

/-- One row of an N×4 numpy array.  Depending on context the columns mean
corner form (xmin, ymin, xmax, ymax) or center form (cx, cy, w, h). -/
structure Box4 (α : Type) where
  v0 : α
  v1 : α
  v2 : α
  v3 : α
deriving DecidableEq, Repr

instance : Inhabited (Box4 ℚ) := ⟨⟨0, 0, 0, 0⟩⟩

/-- Source `xywh_to_xyxy_np`, one row:
`np.concatenate((boxes[:, :2] - boxes[:, 2:] / 2, boxes[:, :2] + boxes[:, 2:] / 2), 1)`. -/
def xywh_to_xyxy (b : Box4 ℚ) : Box4 ℚ :=
  ⟨b.v0 - b.v2 / 2, b.v1 - b.v3 / 2, b.v0 + b.v2 / 2, b.v1 + b.v3 / 2⟩

/-- Source `xyxy_to_xywh_np`, one row:
`np.concatenate(((boxes[:, 2:] + boxes[:, :2]) / 2, boxes[:, 2:] - boxes[:, :2]), 1)`. -/
def xyxy_to_xywh (b : Box4 ℚ) : Box4 ℚ :=
  ⟨(b.v2 + b.v0) / 2, (b.v3 + b.v1) / 2, b.v2 - b.v0, b.v3 - b.v1⟩

/-- Intersection area of two corner-form boxes as computed in `IoU_np` (and,
with the same formula, inside `nms_np`): per-axis min-of-maxes minus
max-of-mins, clipped to 0, then multiplied. -/
def interArea (a b : Box4 ℚ) : ℚ :=
  max (min a.v2 b.v2 - max a.v0 b.v0) 0 * max (min a.v3 b.v3 - max a.v1 b.v1) 0

/-- Area of a corner-form box: `(x2 - x0) * (y3 - y1)`; in `nms_np` this is
`np.prod(boxes[:, 2:] - boxes[:, :2], axis=-1)`. -/
def boxArea (b : Box4 ℚ) : ℚ := (b.v2 - b.v0) * (b.v3 - b.v1)

/-- Float division as numpy performs it in `IoU_np`: dividing by zero gives a
non-finite float (NaN for 0/0, ±inf otherwise), modelled as `none`. -/
def divF (a b : ℚ) : Option ℚ := if b = 0 then none else some (a / b)

/-- One entry of the `IoU_np` matrix (`inter / union` with
`union = area_a + area_b - inter`), `none` when the division is by zero. -/
def IoUEntry (a b : Box4 ℚ) : Option ℚ :=
  divF (interArea a b) (boxArea a + boxArea b - interArea a b)

/-- Source `IoU_np(box_a, box_b)`: the full N×M matrix of pairwise IoU values. -/
def IoU_np (A B : List (Box4 ℚ)) : List (List (Option ℚ)) :=
  A.map fun a => B.map fun b => IoUEntry a b

/-- The same IoU value as a total rational (`x / 0 = 0` in `ℚ`): used where
the surrounding algorithm only ever divides by nonzero unions, or where the
result is proved independently of the entries. -/
def IoUq (a b : Box4 ℚ) : ℚ :=
  interArea a b / (boxArea a + boxArea b - interArea a b)

/-! ## Non-maximum suppression (`nms_np`) -/

/-- The pairwise IoU computed inside the `nms_np` loop for a kept box `bi`
against a remaining box `bj`: `inter / ((rem_areas - inter) + area[i])`. -/
def nmsPairIoU (bi bj : Box4 ℚ) : ℚ :=
  interArea bi bj / ((boxArea bj - interArea bi bj) + boxArea bi)

/-- Source `np.argsort(scores)`: indices that sort the scores ascending.  Numpy's
default quicksort leaves the order of equal scores unspecified; we fix the
stable order (ties keep their original index order), which agrees with numpy
whenever the scores are pairwise distinct. -/
def argsortAsc (scores : List ℚ) : List ℕ :=
  List.insertionSort (fun i j => scores.getD i 0 ≤ scores.getD j 0)
    (List.range scores.length)

/-- The suppression loop of `nms_np`, acting on the index pool
`argsort_prob` (sorted descending by score, because the source reverses the
ascending argsort).  Each iteration takes `i = argsort_prob[-1]` (the last,
i.e. lowest-scoring, index of the pool), keeps it, and filters the rest of
the pool by `IoU < overlap`.  The recursion is driven by a fuel argument;
each iteration removes at least one pool element, so fuel `pool.length`
reaches the same fixpoint the `while` loop does. -/
def nmsLoop (boxes : List (Box4 ℚ)) (overlap : ℚ) : ℕ → List ℕ → List ℕ
  | _, [] => []
  | 0, _ :: _ => []
  | _ + 1, [p] => [p]
  | fuel + 1, p :: q :: ps =>
    let i := (p :: q :: ps).getLast (List.cons_ne_nil p (q :: ps))
    i :: nmsLoop boxes overlap fuel
      (((p :: q :: ps).dropLast).filter fun j =>
        decide (nmsPairIoU (boxes.getD i default) (boxes.getD j default) < overlap))

/-- Source `nms_np(boxes, scores, overlap, top_k)`.  Returns the kept boxes, the
kept scores, and the count.  Note the source never reads `top_k` inside the
function body, and the loop pops the *last* element of the
descending-sorted index array; both are mirrored here. -/
def nms_np (boxes : List (Box4 ℚ)) (scores : List ℚ) (overlap : ℚ)
    (top_k : ℕ) : List (Box4 ℚ) × List ℚ × ℕ :=
  if boxes.length ≤ 1 then (boxes, scores, boxes.length)
  else
    let pool := (argsortAsc scores).reverse
    let keep := nmsLoop boxes overlap pool.length pool
    (keep.map fun i => boxes.getD i default,
     keep.map fun i => scores.getD i 0,
     keep.length)

/-! ## Matching (`match_np`) -/

/-- Source `np.argmax` over a 1-D array: index of the first occurrence of the
maximum.  The accumulator keeps the current best index and value; a later
entry replaces it only when strictly larger.  (`np.argmax` on an empty array
raises; the `0` for `[]` is never exercised by the callers below.) -/
def argmaxAux : List ℚ → ℕ → ℕ → ℚ → ℕ
  | [], _, best, _ => best
  | x :: rest, i, best, bv =>
    if bv < x then argmaxAux rest (i + 1) i x else argmaxAux rest (i + 1) best bv

/-- Source `np.argmax(xs)` for a 1-D array. -/
def argmaxIdx : List ℚ → ℕ
  | [] => 0
  | x :: rest => argmaxAux rest 1 0 x

/-- Source `np.amax(xs)` for a 1-D array (again, `[]` raises in numpy). -/
def amaxQ : List ℚ → ℚ
  | [] => 0
  | x :: rest => rest.foldl max x

/-- Numpy fancy-index assignment `dst[σ(js)] = v(js)`: the writes happen
sequentially in index order, so for duplicate target positions the last
write wins. -/
def seqWrite {α : Type} (σ : ℕ → ℕ) (v : ℕ → α) (js : List ℕ) (l : List α) : List α :=
  js.foldl (fun acc j => acc.set (σ j) (v j)) l

/-- The K×P overlap matrix of `match_np`:
`IoU_np(ground_truths, xywh_to_xyxy_np(priors_boxes))`, one row per ground
truth.  (`ℚ`-division is total with `x / 0 = 0`; the claims proved below
about this matrix hold for arbitrary entry values, so the NaN modelling of
`IoUEntry` is not needed here.) -/
def matchOverlaps (gts priors : List (Box4 ℚ)) : List (List ℚ) :=
  gts.map fun g => priors.map fun pr => IoUq g (xywh_to_xyxy pr)

/-- Source `best_prior_idx = np.argmax(overlaps, 1)`: per ground truth, its
best-overlapping prior. -/
def bpOf (overlaps : List (List ℚ)) : List ℕ := overlaps.map argmaxIdx

/-- Source `best_gt_overlap = np.amax(overlaps, 0)`: per prior, its best overlap
over the ground truths (`P` columns). -/
def bgoOf (overlaps : List (List ℚ)) (P : ℕ) : List ℚ :=
  (List.range P).map fun p => amaxQ (overlaps.map fun row => row.getD p 0)

/-- Source `best_gt_idx = np.argmax(overlaps, 0)`: per prior, its best ground
truth. -/
def bgiOf (overlaps : List (List ℚ)) (P : ℕ) : List ℕ :=
  (List.range P).map fun p => argmaxIdx (overlaps.map fun row => row.getD p 0)

/-- Write `best_gt_overlap[best_prior_idx] = 2`: the forced-match sentinel
write. -/
def bgo2Of (overlaps : List (List ℚ)) (P : ℕ) : List ℚ :=
  seqWrite (fun j => (bpOf overlaps).getD j 0) (fun _ => (2 : ℚ))
    (List.range (bpOf overlaps).length) (bgoOf overlaps P)

/-- Write `best_gt_idx[best_prior_idx] = np.arange(num_objects)`: the forced-match
index write. -/
def bgi2Of (overlaps : List (List ℚ)) (P : ℕ) : List ℕ :=
  seqWrite (fun j => (bpOf overlaps).getD j 0) (fun j => j)
    (List.range (bpOf overlaps).length) (bgiOf overlaps P)

/-- Value `best_prior_idx[j]` for the `match_np` overlap matrix. -/
def bestPriorIdx (gts priors : List (Box4 ℚ)) (j : ℕ) : ℕ :=
  (bpOf (matchOverlaps gts priors)).getD j 0

/-- The class-label half of `match_np`, for an arbitrary overlap matrix:
after the two forced-match fancy assignments,
`cls = labels[best_gt_idx] + 1` with `cls[best_gt_overlap < pos_threshold] = 0`
(the masked in-place write acts elementwise). -/
def clsFromOverlaps (τ : ℚ) (overlaps : List (List ℚ)) (labels : List ℕ) (P : ℕ) : List ℕ :=
  List.zipWith (fun o c => if o < τ then 0 else c) (bgo2Of overlaps P)
    ((bgi2Of overlaps P).map fun k => labels.getD k 0 + 1)

/-- The `cls` output of `match_np(pos_threshold, ground_truths, priors_boxes,
labels)`.  (The regression output of lines 56–63 applies `np.log` and is
embedded separately over `ℝ` as `encodeRow`, being row-wise.) -/
def match_np_cls (τ : ℚ) (gts priors : List (Box4 ℚ)) (labels : List ℕ) : List ℕ :=
  clsFromOverlaps τ (matchOverlaps gts priors) labels priors.length

/-! ## Detection postprocessing (`detect_np`), one image -/

/-- Source `np.clip(x, 0.0, 1.0)`. -/
def clip01 (q : ℚ) : ℚ := min (max q 0) 1

/-- The body of `detect_np`'s per-image loop.  `C` is `probs_pred.shape[2]`
(the class count).  The outer `Option` is the error channel: `none` there
models an uncaught exception (`np.vstack` of an empty list raises); the
inner `none` is the explicit `None` appended for an image with no surviving
prior. -/
def detectImage (boxes_pred : List (Box4 ℚ)) (probs_pred : List (List ℚ))
    (top_k : ℕ) (cls_thresh nms_thresh : ℚ) (C : ℕ) :
    Option (Option (List (List ℚ))) :=
  let maxp := fun t => amaxQ (probs_pred.getD t [])
  let argp := fun t => argmaxIdx (probs_pred.getD t [])
  -- prob_filter = np.logical_and(max_probs[i] > cls_thresh, argmax_probs[i] > 0)
  let keptIdx := (List.range probs_pred.length).filter fun t =>
    decide (cls_thresh < maxp t ∧ 0 < argp t)
  if keptIdx.length < 1 then some none
  else
    let boxes := keptIdx.map fun t => boxes_pred.getD t default
    let clses := keptIdx.map argp
    let probs := keptIdx.map maxp
    let perClass := (List.range' 1 (C - 1)).filterMap fun c =>
      let clsIdx := (List.range clses.length).filter fun t => decide (clses.getD t 0 = c)
      if clsIdx.length < 1 then none   -- `continue`: this class contributes nothing
      else
        let r := nms_np (clsIdx.map fun t => boxes.getD t default)
                        (clsIdx.map fun t => probs.getD t 0) nms_thresh top_k
        -- np.hstack([np.clip(nms_boxes, 0, 1), nms_probs[:, None], ones*(c-1)])
        some ((List.zip r.1 r.2.1).map fun x =>
          [clip01 x.1.v0, clip01 x.1.v1, clip01 x.1.v2, clip01 x.1.v3, x.2, (c : ℚ) - 1])
    match perClass with
    | [] => none                       -- np.vstack([]) raises
    | xs => some (some xs.flatten)

/-! ## Decoding (`decode_np`, `decode_batch_np`)

The decoder applies `np.exp`, so its value-level embedding lives over `ℝ`.
The definitions are generic in the scalar field and in the pointwise
exponential `e` (instantiated with `Real.exp` below; the store-level frame
theorems reuse them over `ℚ`, where the choice of `e` is irrelevant). -/

/-- One row of `priors[..., :2] + loc[..., :2] * 0.1 * priors[..., 2:]`. -/
def rowPart1 {α : Type} [Field α] (lr pr : List α) : List α :=
  List.zipWith (· + ·) (pr.take 2)
    (List.zipWith (fun l_ p2 => l_ * 0.1 * p2) (lr.take 2) (pr.drop 2))

/-- One row of `priors[..., 2:] * e(loc[..., 2:] * 0.2)`. -/
def rowPart2 {α : Type} [Field α] (e : α → α) (lr pr : List α) : List α :=
  List.zipWith (fun p2 l2 => p2 * e (l2 * 0.2)) (pr.drop 2) (lr.drop 2)

/-- In-place `boxes[..., :2] -= boxes[..., 2:] / 2`, one row.  The
right-hand slice must broadcast onto the 2-wide left-hand slice (equal
width, or width 1); otherwise numpy raises a broadcast `ValueError`,
modelled as `none`. -/
def inplaceSub2 {α : Type} [Field α] (row : List α) : Option (List α) :=
  let lhs := row.take 2
  let rhs := (row.drop 2).map (· / 2)
  if rhs.length = lhs.length then some (List.zipWith (· - ·) lhs rhs ++ row.drop 2)
  else if rhs.length = 1 then some (lhs.map (· - rhs.headD 0) ++ row.drop 2)
  else none

/-- In-place `boxes[..., 2:] += boxes[..., :2]`, one row, same broadcast
discipline. -/
def inplaceAdd2 {α : Type} [Field α] (row : List α) : Option (List α) :=
  let lhs := row.drop 2
  let rhs := row.take 2
  if rhs.length = lhs.length then some (row.take 2 ++ List.zipWith (· + ·) lhs rhs)
  else if rhs.length = 1 then some (row.take 2 ++ lhs.map (· + rhs.headD 0))
  else none

/-- Source `decode_np(loc, priors)` on a 2-D array (list of rows).  For 2-D inputs
`np.concatenate(..., 1)` concatenates along the column axis, i.e. appends
within each row. -/
def decode_np_rows {α : Type} [Field α] (e : α → α) (loc priors : List (List α)) :
    Option (List (List α)) :=
  let boxes := List.zipWith (fun lr pr => rowPart1 lr pr ++ rowPart2 e lr pr) loc priors
  (boxes.mapM inplaceSub2).bind fun b => b.mapM inplaceAdd2

/-- Source `decode_batch_np(loc, priors)` on 3-D arrays.  For 3-D inputs the
source's `np.concatenate(..., 1)` concatenates along axis 1, i.e. appends
the two P-row blocks within each batch element (not within each row). -/
def decode_batch_np {α : Type} [Field α] (e : α → α) (loc priors : List (List (List α))) :
    Option (List (List (List α))) :=
  let boxes := List.zipWith (fun lb pb =>
    List.zipWith rowPart1 lb pb ++ List.zipWith (rowPart2 e) lb pb) loc priors
  (boxes.mapM (List.mapM inplaceSub2)).bind fun b => b.mapM (List.mapM inplaceAdd2)

/-- Source `decode_np`, one row, over `ℝ`: the decoded box from one encoded row
`l` and one center-form prior `p`. -/
noncomputable def decodeRow (l p : Box4 ℝ) : Box4 ℝ :=
  let c0 := p.v0 + l.v0 * 0.1 * p.v2
  let c1 := p.v1 + l.v1 * 0.1 * p.v3
  let w := p.v2 * Real.exp (l.v2 * 0.2)
  let h := p.v3 * Real.exp (l.v3 * 0.2)
  -- boxes[:, :2] -= boxes[:, 2:] / 2 ; boxes[:, 2:] += boxes[:, :2]
  let x0 := c0 - w / 2
  let y0 := c1 - h / 2
  ⟨x0, y0, w + x0, h + y0⟩

/-- The regression target `match_np` encodes (lines 56–63), one row: a
matched corner-form box `m` against a center-form prior `p`:
`g_cxcy = ((m[:2] + m[2:]) / 2 - p[:2]) / (p[2:] * 0.1)`,
`g_wh = log((m[2:] - m[:2]) / p[2:]) / 0.2`. -/
noncomputable def encodeRow (m p : Box4 ℝ) : Box4 ℝ :=
  ⟨((m.v0 + m.v2) / 2 - p.v0) / (p.v2 * 0.1),
   ((m.v1 + m.v3) / 2 - p.v1) / (p.v3 * 0.1),
   Real.log ((m.v2 - m.v0) / p.v2) / 0.2,
   Real.log ((m.v3 - m.v1) / p.v3) / 0.2⟩

/-! ## Store-level embedding for the mutation claim

Numpy arrays are buffers; `np.concatenate`, `np.amax`, `np.argmax`,
arithmetic expressions and fancy *reads* all allocate fresh buffers, while
slice assignments (`boxes[:, :2] -= ...`), fancy-index assignments
(`best_gt_overlap[best_prior_idx] = 2`) and masked assignments
(`cls[...] = 0`) write in place into the buffer they are applied to.  The
store is a list of buffers addressed by position; allocation appends, an
in-place operation `List.set`s the buffer it targets.  The frame theorem
shows no pre-existing buffer (in particular no argument buffer) is ever
written.  `IoU_np`, `xywh_to_xyxy_np`, `xyxy_to_xywh_np` and `nms_np`
contain no in-place array operation at all (the `keep` list is a local
Python list), so their pure embeddings above already carry their frame
property. -/

/-- A numpy buffer: an N×4 array viewed as box rows, a generic 2-D float
array, a 1-D float array, or a 1-D integer array. -/
inductive NpVal where
  | boxes : List (Box4 ℚ) → NpVal
  | mat : List (List ℚ) → NpVal
  | vecQ : List ℚ → NpVal
  | vecN : List ℕ → NpVal
deriving DecidableEq

def readBoxes : NpVal → List (Box4 ℚ)
  | .boxes x => x
  | _ => []

def readMat : NpVal → List (List ℚ)
  | .mat x => x
  | _ => []

def readVecN : NpVal → List ℕ
  | .vecN x => x
  | _ => []

/-- In-place `boxes[:, :2] -= boxes[:, 2:] / 2` on one length-4 row (the 2-D
shapes in `decode_np` always broadcast, widths 2 and 2). -/
def subHalfRow (row : List ℚ) : List ℚ :=
  List.zipWith (· - ·) (row.take 2) ((row.drop 2).map (· / 2)) ++ row.drop 2

/-- In-place `boxes[:, 2:] += boxes[:, :2]` on one length-4 row. -/
def addBackRow (row : List ℚ) : List ℚ :=
  row.take 2 ++ List.zipWith (· + ·) (row.drop 2) (row.take 2)

/-- Source `decode_np(loc, priors)` acting on the store: one fresh allocation for
`boxes = np.concatenate(...)`, then the two slice assignments write into
that fresh buffer.  Returns the address of the result.  (`np.exp` is
abstracted by the pointwise `e`; the store behaviour does not depend on
it.) -/
def decode_np_st (e : ℚ → ℚ) (h : List NpVal) (loc priors : ℕ) : ℕ × List NpVal :=
  let lv := readMat (h.getD loc (.mat []))
  let pv := readMat (h.getD priors (.mat []))
  let boxes0 := List.zipWith (fun lr pr => rowPart1 lr pr ++ rowPart2 e lr pr) lv pv
  let a := h.length
  let h1 := h ++ [NpVal.mat boxes0]
  let h2 := h1.set a (NpVal.mat ((readMat (h1.getD a (.mat []))).map subHalfRow))
  let h3 := h2.set a (NpVal.mat ((readMat (h2.getD a (.mat []))).map addBackRow))
  (a, h3)

/-- Source `match_np(pos_threshold, ground_truths, priors_boxes, labels)` acting on
the store, allocations and in-place writes in source order (`np.log` is
abstracted by the pointwise `lg`).  Returns the addresses of `reg` and
`cls`. -/
def match_np_st (lg : ℚ → ℚ) (τ : ℚ) (h : List NpVal) (gt pb lb : ℕ) :
    (ℕ × ℕ) × List NpVal :=
  let gts := readBoxes (h.getD gt (.boxes []))
  let priors := readBoxes (h.getD pb (.boxes []))
  let labels := readVecN (h.getD lb (.vecN []))
  let P := priors.length
  let overlaps := matchOverlaps gts priors
  let bp := overlaps.map argmaxIdx
  let bgo := (List.range P).map fun p => amaxQ (overlaps.map fun row => row.getD p 0)
  let bgi := (List.range P).map fun p => argmaxIdx (overlaps.map fun row => row.getD p 0)
  let a := h.length
  let h1 := h ++ [NpVal.mat overlaps]                    -- overlaps        @ a
  let h2 := h1 ++ [NpVal.vecN bp]                        -- best_prior_idx  @ a+1
  let h3 := h2 ++ [NpVal.vecQ bgo]                       -- best_gt_overlap @ a+2
  let h4 := h3 ++ [NpVal.vecN bgi]                       -- best_gt_idx     @ a+3
  -- best_gt_overlap[best_prior_idx] = 2 : in-place fancy write
  let bgo2 := seqWrite (fun j => bp.getD j 0) (fun _ => (2 : ℚ)) (List.range bp.length) bgo
  let h5 := h4.set (a + 2) (NpVal.vecQ bgo2)
  -- best_gt_idx[best_prior_idx] = np.arange(K) : in-place fancy write
  let bgi2 := seqWrite (fun j => bp.getD j 0) (fun j => j) (List.range bp.length) bgi
  let h6 := h5.set (a + 3) (NpVal.vecN bgi2)
  let mtc := bgi2.map fun k => gts.getD k default
  let h7 := h6 ++ [NpVal.boxes mtc]                  -- matches         @ a+4
  let cls0 := bgi2.map fun k => labels.getD k 0 + 1
  let h8 := h7 ++ [NpVal.vecN cls0]                      -- cls             @ a+5
  -- cls[best_gt_overlap < pos_threshold] = 0 : in-place masked write
  let h9 := h8.set (a + 5)
    (NpVal.vecN (List.zipWith (fun o c => if o < τ then 0 else c) bgo2 cls0))
  let gcxcy0 := List.zipWith
    (fun m pr => [(m.v0 + m.v2) / 2 - pr.v0, (m.v1 + m.v3) / 2 - pr.v1]) mtc priors
  let h10 := h9 ++ [NpVal.mat gcxcy0]                    -- g_cxcy          @ a+6
  -- g_cxcy /= (priors_boxes[:, 2:] * 0.1) : in-place
  let gcxcy := List.zipWith
    (fun r pr => List.zipWith (· / ·) r [pr.v2 * 0.1, pr.v3 * 0.1]) gcxcy0 priors
  let h11 := h10.set (a + 6) (NpVal.mat gcxcy)
  let gwh0 := List.zipWith
    (fun m pr => [(m.v2 - m.v0) / pr.v2, (m.v3 - m.v1) / pr.v3]) mtc priors
  let h12 := h11 ++ [NpVal.mat gwh0]                     -- g_wh            @ a+7
  -- g_wh = np.log(g_wh) / 0.2 rebinds the name to a fresh array
  let gwh2 := gwh0.map fun r => r.map fun x => lg x / 0.2
  let h13 := h12 ++ [NpVal.mat gwh2]                     -- new g_wh        @ a+8
  let reg := List.zipWith (· ++ ·) gcxcy gwh2
  let h14 := h13 ++ [NpVal.mat reg]                      -- reg             @ a+9
  ((a + 9, a + 5), h14)

/-! ## Claims -/

/-- C1: at the spec scenario — boxes `[[0,0,10,10],[1,1,11,11],[50,50,60,60]]`,
scores `[0.9,0.8,0.7]`, overlap threshold `0.5`, `top_k = 10` — `nms_np`
returns the boxes at input indices 2 and 1 with scores `[0.7, 0.8]`, not the
boxes at indices 0 and 2 with scores `[0.9, 0.7]` that the claim states: the
loop reads `argsort_prob[-1]` from the *descending*-sorted index array, so it
processes the lowest-scoring box first, and the highest-scoring box 0 is
suppressed by box 1. -/
theorem nms_np_scenario_keeps_lowest_score_first :
    nms_np [⟨0,0,10,10⟩, ⟨1,1,11,11⟩, ⟨50,50,60,60⟩] [9/10, 8/10, 7/10] (1/2) 10 =
      ([⟨50,50,60,60⟩, ⟨1,1,11,11⟩], [7/10, 8/10], 2) := by
  norm_num [nms_np, nmsLoop, argsortAsc, List.insertionSort, List.orderedInsert,
    nmsPairIoU, interArea, boxArea, List.getLast]

/-- C3: `top_k` is never read inside `nms_np`, so the kept count can exceed
it: two disjoint boxes with `top_k = 1` are both kept (count 2 > 1). -/
theorem nms_np_count_exceeds_top_k :
    (nms_np [⟨0,0,1,1⟩, ⟨5,5,6,6⟩] [9/10, 8/10] (1/2) 1).2.2 = 2 := by
  norm_num [nms_np, nmsLoop, argsortAsc, List.insertionSort, List.orderedInsert,
    nmsPairIoU, interArea, boxArea, List.getLast]

/-- C4: `IoU_np` divides by the union without a guard; for two identical
zero-area boxes the union is `0` and the entry is the float `0/0 = NaN`
(modelled `none`), not the claimed `0`. -/
theorem IoU_np_zero_area_entry_NaN :
    IoU_np [⟨0,0,0,0⟩] [⟨0,0,0,0⟩] = [[none]] := by
  norm_num [IoU_np, IoUEntry, divF, interArea, boxArea]

/-- C2: `decode_batch_np` does not equal the batch-stacked `decode_np`: on a
well-formed `[1,1,4]` input the axis-1 concatenation produces a `[1,2,2]`
array whose in-place slice update fails to broadcast (a numpy `ValueError`,
modelled `none`), while the single-image decoder succeeds on the
corresponding `[1,4]` slice. -/
theorem decode_batch_np_ne_stacked_decode_np :
    decode_batch_np Real.exp [[[0,0,0,0]]] [[[1/2,1/2,1,1]]] = none ∧
    (decode_np_rows Real.exp [[0,0,0,0]] [[1/2,1/2,1,1]]).isSome = true := by
  constructor
  · simp [decode_batch_np, rowPart1, rowPart2, inplaceSub2, List.mapM, List.mapM.loop]
  · simp [decode_np_rows, rowPart1, rowPart2, inplaceSub2, inplaceAdd2,
      List.mapM, List.mapM.loop]

/-- C7 counterexample: the claim that `decode_np` clamps the log-space
width/height before exponentiating — so that the decoded size is bounded
over all inputs — is false: already for the unit prior `(0.5,0.5,1,1)` no
bound `M` dominates the decoded width. -/
theorem decode_np_width_bounded_false :
    ¬ ∃ M : ℝ, ∀ l : Box4 ℝ,
      (decodeRow l ⟨1/2, 1/2, 1, 1⟩).v2 - (decodeRow l ⟨1/2, 1/2, 1, 1⟩).v0 ≤ M := by
  rintro ⟨M, hM⟩
  have h := hM ⟨0, 0, 5 * M, 0⟩
  have hw : (decodeRow ⟨0, 0, 5 * M, 0⟩ ⟨1/2, 1/2, 1, 1⟩).v2 -
      (decodeRow ⟨0, 0, 5 * M, 0⟩ ⟨1/2, 1/2, 1, 1⟩).v0 = Real.exp M := by
    simp only [decodeRow]
    norm_num
    ring_nf
  rw [hw] at h
  have := Real.add_one_le_exp M
  linarith

/-- C7 amended: `decode_np` applies no clamping at all; the decoded width is
exactly `prior_w * exp(loc_w * 0.2)`, which grows without bound in the raw
regression input (in float arithmetic, overflowing to infinity for large
`loc_wh`). -/
theorem decode_np_width_unbounded :
    (∀ l p : Box4 ℝ,
      (decodeRow l p).v2 - (decodeRow l p).v0 = p.v2 * Real.exp (l.v2 * 0.2)) ∧
    (∀ M : ℝ, ∃ l : Box4 ℝ,
      M < (decodeRow l ⟨1/2, 1/2, 1, 1⟩).v2 - (decodeRow l ⟨1/2, 1/2, 1, 1⟩).v0) := by
  constructor
  · intro l p
    simp only [decodeRow]
    ring
  · intro M
    refine ⟨⟨0, 0, 5 * M, 0⟩, ?_⟩
    have hw : (decodeRow ⟨0, 0, 5 * M, 0⟩ ⟨1/2, 1/2, 1, 1⟩).v2 -
        (decodeRow ⟨0, 0, 5 * M, 0⟩ ⟨1/2, 1/2, 1, 1⟩).v0 = Real.exp M := by
      simp only [decodeRow]
      norm_num
      ring_nf
    rw [hw]
    have := Real.add_one_le_exp M
    linarith

/-- C6: the regression target `match_np` encodes for a target box `m`
against a prior `p` decodes back to `m` exactly (over `ℝ`): encoder and
decoder share the variance constants 0.1 and 0.2, and
`exp (log ((w_m) / w_p) / 0.2 * 0.2) = w_m / w_p` for positive sizes. -/
theorem decode_encode_inverse (m p : Box4 ℝ) (hw : 0 < m.v2 - m.v0)
    (hh : 0 < m.v3 - m.v1) (hpw : 0 < p.v2) (hph : 0 < p.v3) :
    decodeRow (encodeRow m p) p = m := by
  obtain ⟨m0, m1, m2, m3⟩ := m
  obtain ⟨p0, p1, p2, p3⟩ := p
  simp only [Box4.mk.injEq] at *
  have e2 : Real.exp (Real.log ((m2 - m0) / p2) / 0.2 * 0.2) = (m2 - m0) / p2 := by
    rw [div_mul_cancel₀ _ (by norm_num : (0.2:ℝ) ≠ 0), Real.exp_log (by positivity)]
  have e3 : Real.exp (Real.log ((m3 - m1) / p3) / 0.2 * 0.2) = (m3 - m1) / p3 := by
    rw [div_mul_cancel₀ _ (by norm_num : (0.2:ℝ) ≠ 0), Real.exp_log (by positivity)]
  simp only [decodeRow, encodeRow, e2, e3, Box4.mk.injEq]
  refine ⟨?_, ?_, ?_, ?_⟩ <;> field_simp <;> ring

/-- Witness for C6 at a concrete input: prior `(0.5,0.5,1,1)`, target
`(0,0,1,1)`. -/
theorem decode_encode_inverse_witness :
    decodeRow (encodeRow ⟨0,0,1,1⟩ ⟨1/2,1/2,1,1⟩) ⟨1/2,1/2,1,1⟩ = ⟨0,0,1,1⟩ :=
  decode_encode_inverse ⟨0,0,1,1⟩ ⟨1/2,1/2,1,1⟩ (by norm_num) (by norm_num)
    (by norm_num) (by norm_num)

/-- C9: when every prior of an image has max class probability `≤ cls_thresh`
or a background argmax (class index 0), the per-image branch of `detect_np`
returns the explicit `None` marker (inner `none`), and no exception is
raised (outer value is `some`). -/
theorem detect_np_all_below_thresh_empty_marker (boxes_pred : List (Box4 ℚ))
    (probs_pred : List (List ℚ)) (top_k : ℕ) (cls_thresh nms_thresh : ℚ) (C : ℕ)
    (h : ∀ t, t < probs_pred.length →
      amaxQ (probs_pred.getD t []) ≤ cls_thresh ∨ argmaxIdx (probs_pred.getD t []) = 0) :
    detectImage boxes_pred probs_pred top_k cls_thresh nms_thresh C = some none := by
  have hnil : ((List.range probs_pred.length).filter fun t =>
      decide (cls_thresh < amaxQ (probs_pred.getD t []) ∧
        0 < argmaxIdx (probs_pred.getD t []))) = [] := by
    rw [List.filter_eq_nil_iff]
    intro t ht
    rcases h t (List.mem_range.mp ht) with h1 | h1 <;>
      simp only [decide_eq_true_eq, not_and, not_lt] <;> intro hc
    · exact absurd hc (not_lt.mpr h1)
    · omega
  simp only [detectImage]
  rw [hnil]
  simp

/-- Witness for C9: one prior, class probabilities `[0.5, 0.25]`, threshold
`0.75`: the image yields the `None` marker. -/
theorem detect_np_all_below_thresh_empty_marker_witness :
    detectImage [⟨0,0,1,1⟩] [[1/2, 1/4]] 5 (3/4) (1/2) 2 = some none := by
  apply detect_np_all_below_thresh_empty_marker
  intro t ht
  have ht0 : t = 0 := by simp at ht; omega
  subst ht0
  left
  norm_num [amaxQ, List.foldl, max_le_iff]

/-- Appending a fresh buffer, or writing a buffer at an address at or beyond
the original store, leaves every original address unchanged (and the store
at least as long).  The building block for the frame theorems. -/
lemma frame_app {α : Type} (h : List α) (t : ℕ) (ht : t < h.length)
    (l : List α) (x : α) (h1 : l[t]? = h[t]?) (h2 : h.length ≤ l.length) :
    (l ++ [x])[t]? = h[t]? ∧ h.length ≤ (l ++ [x]).length := by
  refine ⟨?_, by simp; omega⟩
  rw [List.getElem?_append_left (by omega : t < l.length)]
  exact h1

/-- See `frame_app`: the in-place-write step. -/
lemma frame_set {α : Type} (h : List α) (t : ℕ) (ht : t < h.length)
    (l : List α) (i : ℕ) (y : α) (hi : h.length ≤ i)
    (h1 : l[t]? = h[t]?) (h2 : h.length ≤ l.length) :
    (l.set i y)[t]? = h[t]? ∧ h.length ≤ (l.set i y).length := by
  refine ⟨?_, by simp; omega⟩
  rw [List.getElem?_set_ne (by omega : i ≠ t)]
  exact h1

/-- The exact allocation/write chain `match_np` performs on the store never
touches an address below the initial store length. -/
lemma match_heap_chain_frame {α : Type} (h : List α) (t : ℕ) (ht : t < h.length)
    (x1 x2 x3 x4 x5 x6 x7 x8 x9 x10 y2 y3 y6 y7 : α) :
    (((((h ++ [x1] ++ [x2] ++ [x3] ++ [x4]).set (h.length + 2) y2).set
        (h.length + 3) y3 ++ [x5] ++ [x6]).set (h.length + 5) y6 ++ [x7]).set
        (h.length + 6) y7 ++ [x8] ++ [x9] ++ [x10])[t]? = h[t]? := by
  have c0 : h[t]? = h[t]? ∧ h.length ≤ h.length := ⟨rfl, le_rfl⟩
  have c1 := frame_app h t ht _ x1 c0.1 c0.2
  have c2 := frame_app h t ht _ x2 c1.1 c1.2
  have c3 := frame_app h t ht _ x3 c2.1 c2.2
  have c4 := frame_app h t ht _ x4 c3.1 c3.2
  have c5 := frame_set h t ht _ (h.length + 2) y2 (by omega) c4.1 c4.2
  have c6 := frame_set h t ht _ (h.length + 3) y3 (by omega) c5.1 c5.2
  have c7 := frame_app h t ht _ x5 c6.1 c6.2
  have c8 := frame_app h t ht _ x6 c7.1 c7.2
  have c9 := frame_set h t ht _ (h.length + 5) y6 (by omega) c8.1 c8.2
  have c10 := frame_app h t ht _ x7 c9.1 c9.2
  have c11 := frame_set h t ht _ (h.length + 6) y7 (by omega) c10.1 c10.2
  have c12 := frame_app h t ht _ x8 c11.1 c11.2
  have c13 := frame_app h t ht _ x9 c12.1 c12.2
  have c14 := frame_app h t ht _ x10 c13.1 c13.2
  exact c14.1

/-- C10: neither `decode_np` nor `match_np` mutates any buffer that existed
before the call — every in-place numpy operation they perform targets a
freshly allocated buffer, so every pre-existing address `t` (in particular
the argument buffers `loc`, `priors`, `ground_truths`, `priors_boxes`,
`labels`) reads back unchanged.  `xywh_to_xyxy_np`, `xyxy_to_xywh_np`,
`IoU_np` and `nms_np` perform no in-place array operation at all and are
embedded as pure functions. -/
theorem decode_match_no_input_mutation (e lg : ℚ → ℚ) (τ : ℚ) (h : List NpVal)
    (loc priors gt pb lb t : ℕ) (ht : t < h.length) :
    (decode_np_st e h loc priors).2[t]? = h[t]? ∧
    (match_np_st lg τ h gt pb lb).2[t]? = h[t]? := by
  constructor
  · simp only [decode_np_st]
    rw [List.getElem?_set_ne (by omega : h.length ≠ t),
      List.getElem?_set_ne (by omega : h.length ≠ t),
      List.getElem?_append_left ht]
  · simp only [match_np_st]
    exact match_heap_chain_frame h t ht _ _ _ _ _ _ _ _ _ _ _ _ _ _

/-- Witness for C10 on a concrete three-buffer store. -/
theorem decode_match_no_input_mutation_witness :
    (decode_np_st id [NpVal.mat [[0,0,0,0]], NpVal.boxes [⟨0,0,1,1⟩], NpVal.vecN [0]]
      0 0).2[0]? = some (NpVal.mat [[0,0,0,0]]) ∧
    (match_np_st id (1/2) [NpVal.mat [[0,0,0,0]], NpVal.boxes [⟨0,0,1,1⟩], NpVal.vecN [0]]
      1 1 2).2[1]? = some (NpVal.boxes [⟨0,0,1,1⟩]) := by
  have h := decode_match_no_input_mutation id id (1/2)
    [NpVal.mat [[0,0,0,0]], NpVal.boxes [⟨0,0,1,1⟩], NpVal.vecN [0]] 0 0 1 1 2
  exact ⟨((h 0 (by simp)).1).trans (by simp), ((h 1 (by simp)).2).trans (by simp)⟩

/-- Every index the `nms_np` loop keeps comes from its candidate pool. -/
lemma nmsLoop_subset (boxes : List (Box4 ℚ)) (ov : ℚ) :
    ∀ (fuel : ℕ) (pool : List ℕ), ∀ x ∈ nmsLoop boxes ov fuel pool, x ∈ pool := by
  intro fuel
  induction fuel with
  | zero =>
    intro pool x hx
    cases pool <;> simp [nmsLoop] at hx
  | succ fuel ih =>
    intro pool x hx
    match pool with
    | [] => simp [nmsLoop] at hx
    | [p] =>
      simp only [nmsLoop, List.mem_singleton] at hx
      simp [hx]
    | p :: q :: ps =>
      simp only [nmsLoop] at hx
      rcases List.mem_cons.mp hx with rfl | hx2
      · exact List.getLast_mem _
      · exact List.dropLast_subset _ (List.mem_filter.mp (ih _ x hx2)).1

/-- The `nms_np` loop keeps at most as many indices as its pool holds. -/
lemma nmsLoop_length_le (boxes : List (Box4 ℚ)) (ov : ℚ) :
    ∀ (fuel : ℕ) (pool : List ℕ), (nmsLoop boxes ov fuel pool).length ≤ pool.length := by
  intro fuel
  induction fuel with
  | zero =>
    intro pool
    cases pool <;> simp [nmsLoop]
  | succ fuel ih =>
    intro pool
    match pool with
    | [] => simp [nmsLoop]
    | [p] => simp [nmsLoop]
    | p :: q :: ps =>
      simp only [nmsLoop, List.length_cons]
      have h1 := ih (((p :: q :: ps).dropLast).filter fun j =>
        decide (nmsPairIoU
          (boxes.getD ((p :: q :: ps).getLast (List.cons_ne_nil p (q :: ps))) default)
          (boxes.getD j default) < ov))
      have h2 := List.length_filter_le
        (fun j => decide (nmsPairIoU
          (boxes.getD ((p :: q :: ps).getLast (List.cons_ne_nil p (q :: ps))) default)
          (boxes.getD j default) < ov)) ((p :: q :: ps).dropLast)
      simp only [List.length_dropLast, List.length_cons] at h1 h2 ⊢
      omega

/-- Any index kept by the `nms_np` loop after `i` survived the `IoU <
overlap` filter against `i`, so the kept indices are pairwise below the
threshold in keep order. -/
lemma nmsLoop_pairwise (boxes : List (Box4 ℚ)) (ov : ℚ) :
    ∀ (fuel : ℕ) (pool : List ℕ), (nmsLoop boxes ov fuel pool).Pairwise
      (fun a b => nmsPairIoU (boxes.getD a default) (boxes.getD b default) < ov) := by
  intro fuel
  induction fuel with
  | zero =>
    intro pool
    cases pool <;> simp [nmsLoop]
  | succ fuel ih =>
    intro pool
    match pool with
    | [] => simp [nmsLoop]
    | [p] => simp [nmsLoop]
    | p :: q :: ps =>
      simp only [nmsLoop]
      refine List.pairwise_cons.mpr ⟨?_, ih _⟩
      intro b hb
      have hmem := nmsLoop_subset boxes ov _ _ b hb
      exact of_decide_eq_true (List.mem_filter.mp hmem).2

/-- Symmetry of `interArea`. -/
lemma interArea_comm (a b : Box4 ℚ) : interArea a b = interArea b a := by
  unfold interArea
  rw [min_comm a.v2 b.v2, max_comm a.v0 b.v0, min_comm a.v3 b.v3, max_comm a.v1 b.v1]

/-- The IoU value computed inside the `nms_np` loop is symmetric in the two
boxes. -/
lemma nmsPairIoU_comm (a b : Box4 ℚ) : nmsPairIoU a b = nmsPairIoU b a := by
  unfold nmsPairIoU
  rw [interArea_comm]
  congr 1
  ring

/-- C8: `nms_np` keeps at most as many boxes as it was given, and any two
distinct kept boxes have pairwise IoU (as the loop computes it, in either
argument order) strictly below the overlap threshold — every candidate with
IoU ≥ threshold against a kept box is dropped from the pool. -/
theorem nms_np_suppression_invariants (boxes : List (Box4 ℚ)) (scores : List ℚ)
    (ov : ℚ) (top_k : ℕ) (hpos : ∀ b ∈ boxes, 0 < boxArea b)
    (hlen : scores.length = boxes.length) :
    (nms_np boxes scores ov top_k).2.2 ≤ boxes.length ∧
    (nms_np boxes scores ov top_k).1.Pairwise
      (fun a b => nmsPairIoU a b < ov ∧ nmsPairIoU b a < ov) := by
  unfold nms_np
  by_cases hb : boxes.length ≤ 1
  · simp only [hb, if_true]
    refine ⟨le_rfl, ?_⟩
    rcases boxes with _ | ⟨b, _ | ⟨c, rest⟩⟩
    · exact List.Pairwise.nil
    · simp
    · simp at hb
  · simp only [hb, if_false]
    constructor
    · calc (nmsLoop boxes ov (argsortAsc scores).reverse.length
            (argsortAsc scores).reverse).length
          ≤ (argsortAsc scores).reverse.length :=
            nmsLoop_length_le boxes ov _ _
        _ = boxes.length := by
            simp [argsortAsc, List.length_insertionSort, hlen]
    · rw [List.pairwise_map]
      refine (nmsLoop_pairwise boxes ov _ _).imp ?_
      intro a b hab
      exact ⟨hab, by rw [nmsPairIoU_comm]; exact hab⟩

/-- Witness for C8: two disjoint positive-area boxes. -/
theorem nms_np_suppression_invariants_witness :
    (nms_np [⟨0,0,1,1⟩, ⟨2,2,3,3⟩] [1/2, 1/4] (1/2) 7).2.2 ≤
      ([⟨0,0,1,1⟩, ⟨2,2,3,3⟩] : List (Box4 ℚ)).length ∧
    (nms_np [⟨0,0,1,1⟩, ⟨2,2,3,3⟩] [1/2, 1/4] (1/2) 7).1.Pairwise
      (fun a b => nmsPairIoU a b < 1/2 ∧ nmsPairIoU b a < 1/2) := by
  apply nms_np_suppression_invariants
  · intro b hb
    simp only [List.mem_cons, List.not_mem_nil, or_false] at hb
    rcases hb with rfl | rfl <;> norm_num [boxArea]
  · rfl

lemma seqWrite_nil {α : Type} (σ : ℕ → ℕ) (v : ℕ → α) (l : List α) :
    seqWrite σ v [] l = l := rfl

lemma seqWrite_cons {α : Type} (σ : ℕ → ℕ) (v : ℕ → α) (j : ℕ) (js : List ℕ)
    (l : List α) : seqWrite σ v (j :: js) l = seqWrite σ v js (l.set (σ j) (v j)) := rfl

lemma seqWrite_append {α : Type} (σ : ℕ → ℕ) (v : ℕ → α) (js₁ js₂ : List ℕ)
    (l : List α) :
    seqWrite σ v (js₁ ++ js₂) l = seqWrite σ v js₂ (seqWrite σ v js₁ l) := by
  simp [seqWrite, List.foldl_append]

lemma seqWrite_length {α : Type} (σ : ℕ → ℕ) (v : ℕ → α) (js : List ℕ) (l : List α) :
    (seqWrite σ v js l).length = l.length := by
  induction js generalizing l with
  | nil => rfl
  | cons j js ih => rw [seqWrite_cons, ih, List.length_set]

/-- A sequence of writes none of which targets position `p` leaves `p`
unchanged. -/
lemma seqWrite_getElem?_miss {α : Type} (σ : ℕ → ℕ) (v : ℕ → α) (js : List ℕ)
    (l : List α) (p : ℕ) (h : ∀ j ∈ js, σ j ≠ p) :
    (seqWrite σ v js l)[p]? = l[p]? := by
  induction js generalizing l with
  | nil => rfl
  | cons j js ih =>
    rw [seqWrite_cons, ih _ fun j' hj' => h j' (List.mem_cons_of_mem _ hj'),
      List.getElem?_set_ne (h j (List.mem_cons_self j js))]

/-- Sequential writes with duplicate targets: the last write to `p` wins. -/
lemma seqWrite_getElem?_hit {α : Type} (σ : ℕ → ℕ) (v : ℕ → α) (js₁ js₂ : List ℕ)
    (j : ℕ) (l : List α) (p : ℕ) (hp : p < l.length) (hσ : σ j = p)
    (hmiss : ∀ j' ∈ js₂, σ j' ≠ p) :
    (seqWrite σ v (js₁ ++ j :: js₂) l)[p]? = some (v j) := by
  rw [seqWrite_append, seqWrite_cons, seqWrite_getElem?_miss _ _ _ _ _ hmiss, hσ]
  have hlt : p < (seqWrite σ v js₁ l).length := by rw [seqWrite_length]; exact hp
  exact List.getElem?_set_eq_of_lt _ hlt

/-- Splitting `range K` at a position `j < K`. -/
lemma range_decomp (j K : ℕ) (h : j < K) :
    List.range K = List.range j ++ j :: List.range' (j + 1) (K - (j + 1)) := by
  rw [List.range_eq_range', List.range_eq_range']
  have h2 : j :: List.range' (j + 1) (K - (j + 1)) = List.range' j (K - j) := by
    have h3 : K - j = (K - (j + 1)) + 1 := by omega
    rw [h3, List.range'_succ]
  rw [h2]
  have h3 := List.range'_append_1 0 j (K - j)
  simp only [Nat.zero_add] at h3
  rw [h3]
  congr 1
  omega

lemma argmaxAux_lt (rest : List ℚ) : ∀ (i best : ℕ) (bv : ℚ), best < i →
    argmaxAux rest i best bv < i + rest.length := by
  induction rest with
  | nil => intro i best bv h; simpa [argmaxAux] using h
  | cons x rest ih =>
    intro i best bv h
    rw [argmaxAux]
    by_cases hc : bv < x
    · rw [if_pos hc]
      have := ih (i + 1) i x (by omega)
      simpa [Nat.add_assoc, Nat.add_comm 1 rest.length] using this
    · rw [if_neg hc]
      have := ih (i + 1) best bv (by omega)
      simpa [Nat.add_assoc, Nat.add_comm 1 rest.length] using this

/-- Value of `np.argmax` on a nonempty array is a valid index. -/
lemma argmaxIdx_lt (xs : List ℚ) (hx : xs ≠ []) : argmaxIdx xs < xs.length := by
  match xs with
  | [] => exact absurd rfl hx
  | x :: rest =>
    rw [argmaxIdx]
    have := argmaxAux_lt rest 1 0 x (by omega)
    simpa [Nat.add_comm] using this

@[simp] lemma bpOf_length (ov : List (List ℚ)) : (bpOf ov).length = ov.length := by
  simp [bpOf]

@[simp] lemma bgoOf_length (ov : List (List ℚ)) (P : ℕ) : (bgoOf ov P).length = P := by
  simp [bgoOf]

@[simp] lemma bgiOf_length (ov : List (List ℚ)) (P : ℕ) : (bgiOf ov P).length = P := by
  simp [bgiOf]

/-- If ground truth `j` is the last (largest-index) ground truth whose best
prior is `p`, the sentinel write leaves overlap 2 at `p`. -/
lemma bgo2Of_getElem? (ov : List (List ℚ)) (P : ℕ) (j : ℕ) (hj : j < ov.length)
    (hp : (bpOf ov).getD j 0 < P)
    (hlast : ∀ j', j < j' → j' < ov.length → (bpOf ov).getD j' 0 ≠ (bpOf ov).getD j 0) :
    (bgo2Of ov P)[(bpOf ov).getD j 0]? = some 2 := by
  rw [bgo2Of, range_decomp j (bpOf ov).length (by simpa using hj)]
  refine seqWrite_getElem?_hit _ _ _ _ _ _ _ (by simpa using hp) rfl ?_
  intro j' hj'
  obtain ⟨i, hi, rfl⟩ := List.mem_range'.mp hj'
  exact hlast _ (by omega) (by simp at hi ⊢; omega)

/-- Same situation for the index write: `p` records ground truth `j`. -/
lemma bgi2Of_getElem? (ov : List (List ℚ)) (P : ℕ) (j : ℕ) (hj : j < ov.length)
    (hp : (bpOf ov).getD j 0 < P)
    (hlast : ∀ j', j < j' → j' < ov.length → (bpOf ov).getD j' 0 ≠ (bpOf ov).getD j 0) :
    (bgi2Of ov P)[(bpOf ov).getD j 0]? = some j := by
  rw [bgi2Of, range_decomp j (bpOf ov).length (by simpa using hj)]
  refine seqWrite_getElem?_hit _ _ _ _ _ _ _ (by simpa using hp) rfl ?_
  intro j' hj'
  obtain ⟨i, hi, rfl⟩ := List.mem_range'.mp hj'
  exact hlast _ (by omega) (by simp at hi ⊢; omega)

/-- The forced match survives the threshold test whenever `τ ≤ 1 < 2`: the
class at the forced prior is the winning ground truth's label plus one. -/
lemma clsFromOverlaps_forced (τ : ℚ) (ov : List (List ℚ)) (labels : List ℕ)
    (P : ℕ) (j : ℕ) (hτ : τ ≤ 1) (hj : j < ov.length)
    (hp : (bpOf ov).getD j 0 < P)
    (hlast : ∀ j', j < j' → j' < ov.length → (bpOf ov).getD j' 0 ≠ (bpOf ov).getD j 0) :
    (clsFromOverlaps τ ov labels P).getD ((bpOf ov).getD j 0) 0 =
      labels.getD j 0 + 1 := by
  rw [clsFromOverlaps, List.getD_eq_getElem?_getD, List.getElem?_zipWith,
    bgo2Of_getElem? ov P j hj hp hlast, List.getElem?_map,
    bgi2Of_getElem? ov P j hj hp hlast]
  have h2 : ¬ ((2 : ℚ) < τ) := by linarith
  simp [h2]

/-- The best prior of ground truth `j` is a valid prior index. -/
lemma bestPriorIdx_lt (gts priors : List (Box4 ℚ)) (j : ℕ) (hj : j < gts.length)
    (hpri : priors ≠ []) : bestPriorIdx gts priors j < priors.length := by
  have hrow : (matchOverlaps gts priors)[j]? =
      some (priors.map fun pr => IoUq (gts.get ⟨j, hj⟩) (xywh_to_xyxy pr)) := by
    rw [matchOverlaps, List.getElem?_map, List.getElem?_eq_getElem hj]
    simp
  rw [bestPriorIdx, bpOf, List.getD_eq_getElem?_getD, List.getElem?_map, hrow]
  simp only [Option.map_some', Option.getD_some]
  have hne : (priors.map fun pr => IoUq (gts.get ⟨j, hj⟩) (xywh_to_xyxy pr)) ≠ [] := by
    simpa using hpri
  have h2 := argmaxIdx_lt _ hne
  simpa using h2

/-- C5: for every ground truth `j`, the prior `best_prior_idx[j]` never ends
up labelled background (its sentinel overlap 2 beats any threshold `τ ≤ 1`),
and when no later ground truth shares that best prior, its label is exactly
`labels[j] + 1`; with a shared best prior, the largest ground-truth index
wins (the first conjunct is proved through that winner). -/
theorem match_np_forced_assignment (τ : ℚ) (gts priors : List (Box4 ℚ))
    (labels : List ℕ) (hτ : τ ≤ 1) (hpri : priors ≠ []) :
    ∀ j, j < gts.length →
      (match_np_cls τ gts priors labels).getD (bestPriorIdx gts priors j) 0 ≠ 0 ∧
      ((∀ j', j < j' → j' < gts.length →
          bestPriorIdx gts priors j' ≠ bestPriorIdx gts priors j) →
        (match_np_cls τ gts priors labels).getD (bestPriorIdx gts priors j) 0 =
          labels.getD j 0 + 1) := by
  intro j hj
  have hov : (matchOverlaps gts priors).length = gts.length := by simp [matchOverlaps]
  constructor
  · set w := Nat.findGreatest
      (fun j' => bestPriorIdx gts priors j' = bestPriorIdx gts priors j)
      (gts.length - 1) with hw
    have hwP : bestPriorIdx gts priors w = bestPriorIdx gts priors j :=
      Nat.findGreatest_spec
        (P := fun j' => bestPriorIdx gts priors j' = bestPriorIdx gts priors j)
        (m := j) (by omega) rfl
    have hwle : w ≤ gts.length - 1 := Nat.findGreatest_le _
    have hwlt : w < gts.length := by omega
    have hwlast : ∀ j', w < j' → j' < gts.length →
        bestPriorIdx gts priors j' ≠ bestPriorIdx gts priors w := by
      intro j' h1 h2
      have h3 := Nat.findGreatest_is_greatest
        (P := fun j' => bestPriorIdx gts priors j' = bestPriorIdx gts priors j)
        (n := gts.length - 1) h1 (by omega)
      rw [hwP]
      exact h3
    have hp : bestPriorIdx gts priors w < priors.length :=
      bestPriorIdx_lt _ _ _ hwlt hpri
    have hval : (match_np_cls τ gts priors labels).getD (bestPriorIdx gts priors w) 0 =
        labels.getD w 0 + 1 :=
      clsFromOverlaps_forced τ (matchOverlaps gts priors) labels priors.length w hτ
        (by rw [hov]; exact hwlt) hp
        (fun j' h1 h2 => hwlast j' h1 (by rw [hov] at h2; exact h2))
    rw [← hwP, hval]
    exact Nat.succ_ne_zero _
  · intro hwin
    have hp : bestPriorIdx gts priors j < priors.length :=
      bestPriorIdx_lt _ _ _ hj hpri
    exact clsFromOverlaps_forced τ (matchOverlaps gts priors) labels priors.length j hτ
      (by rw [hov]; exact hj) hp
      (fun j' h1 h2 => hwin j' h1 (by rw [hov] at h2; exact h2))

/-- Witness for C5: one ground truth covering the single whole-image prior,
label 0, threshold 1/2: the forced prior is labelled `0 + 1`, never
background. -/
theorem match_np_forced_assignment_witness :
    (match_np_cls (1/2) [⟨0,0,1,1⟩] [⟨1/2,1/2,1,1⟩] [0]).getD
      (bestPriorIdx [⟨0,0,1,1⟩] [⟨1/2,1/2,1,1⟩] 0) 0 ≠ 0 ∧
    (match_np_cls (1/2) [⟨0,0,1,1⟩] [⟨1/2,1/2,1,1⟩] [0]).getD
      (bestPriorIdx [⟨0,0,1,1⟩] [⟨1/2,1/2,1,1⟩] 0) 0 = 0 + 1 := by
  have h := match_np_forced_assignment (1/2) [⟨0,0,1,1⟩] [⟨1/2,1/2,1,1⟩] [0]
    (by norm_num) (by simp) 0 (by simp)
  refine ⟨h.1, ?_⟩
  have h2 := h.2 (by intro j' h1 h2; simp at h2; omega)
  simpa using h2
